import Mathlib

/-!
Shallow embedding of the row-justified packer `packItemsTight` from
src/src/utils/packing.js, together with theorems settling the spec claims.

JS numbers are modelled by rationals; `Math.floor` is `Int.floor`; a JS
optional numeric field is `Option ℚ`, and the JS truthiness test used by
the `x || d` idiom treats an absent field and 0 as falsy.
-/

namespace Collage

/-- An input item record.  Only the fields the packer reads are modelled:
the aspect-ratio sources and the pinned flag; `payload` stands for the
opaque caller-owned rest of the record, carried through unchanged. -/
structure Item where
  aspect_ratio : Option ℚ
  width : Option ℚ
  height : Option ℚ
  pinned : Bool
  payload : ℕ
deriving DecidableEq, Repr

/-- JS `x || d` for an optional numeric field: an absent field and 0 are
falsy, every other number is returned as is. -/
def orDefault (x : Option ℚ) (d : ℚ) : ℚ :=
  match x with
  | none => d
  | some v => if v = 0 then d else v

/-- The aspect-ratio resolution expression the packer evaluates per item:
`item.aspect_ratio || ((item.width || 100) / (item.height || 100))`. -/
def resolveAspect (i : Item) : ℚ :=
  match i.aspect_ratio with
  | none => orDefault i.width 100 / orDefault i.height 100
  | some a => if a = 0 then orDefault i.width 100 / orDefault i.height 100 else a

/-- An output record: the input item (spread into the output in the source)
with the computed geometry fields. -/
structure Placed where
  item : Item
  x : ℚ
  y : ℚ
  width : ℚ
  height : ℚ
deriving DecidableEq, Repr

/-- The item walk inside `finalizeRow`: each item is placed at the floored
running `x` with width `Math.floor(rowHeight * aspectRatio)` and height
`Math.floor(rowHeight)`, and `x` advances by the floored width. -/
def placeRow (rowHeight y : ℚ) : List Item → ℚ → List Placed
  | [], _ => []
  | i :: rest, x =>
      let aspectRatio := resolveAspect i
      let itemWidth : ℚ := ((⌊rowHeight * aspectRatio⌋ : ℤ) : ℚ)
      { item := i, x := ((⌊x⌋ : ℤ) : ℚ), y := ((⌊y⌋ : ℤ) : ℚ),
        width := itemWidth, height := ((⌊rowHeight⌋ : ℤ) : ℚ) }
        :: placeRow rowHeight y rest (x + itemWidth)

/-- `finalizeRow` from packing.js: empty rows produce nothing and height 0;
otherwise `rowHeight = containerWidth / aspectSum`, capped to
`targetRowHeight` on the last row when it exceeds `targetRowHeight * 1.5`;
returns the placed items and the floored row height that is added to the
running y cursor. -/
def finalizeRow (containerWidth targetRowHeight : ℚ) (items : List Item)
    (aspectSum y : ℚ) (isLastRow : Bool) : List Placed × ℚ :=
  if items = [] then ([], 0)
  else
    let rowHeight0 := containerWidth / aspectSum
    let rowHeight :=
      if isLastRow = true ∧ targetRowHeight * (3 / 2) < rowHeight0 then
        targetRowHeight
      else rowHeight0
    (placeRow rowHeight y items 0, ((⌊rowHeight⌋ : ℤ) : ℚ))

/-- The main accumulation loop of `packItemsTight`: state is the running y
cursor, the current row buffer and its aspect sum; a row is finalized as
soon as `containerWidth / rowAspectSum <= targetRowHeight`, and a trailing
non-empty buffer is finalized with the last-row flag. -/
def packLoop (containerWidth targetRowHeight : ℚ) :
    List Item → ℚ → List Item → ℚ → List Placed
  | [], currentY, rowItems, rowAspectSum =>
      if rowItems = [] then []
      else (finalizeRow containerWidth targetRowHeight rowItems rowAspectSum currentY true).1
  | item :: rest, currentY, rowItems, rowAspectSum =>
      let rowItems' := rowItems ++ [item]
      let rowAspectSum' := rowAspectSum + resolveAspect item
      let potentialHeight := containerWidth / rowAspectSum'
      if potentialHeight ≤ targetRowHeight then
        let fr := finalizeRow containerWidth targetRowHeight rowItems' rowAspectSum' currentY false
        fr.1 ++ packLoop containerWidth targetRowHeight rest (currentY + fr.2) [] 0
      else
        packLoop containerWidth targetRowHeight rest currentY rowItems' rowAspectSum'

/-- `packItemsTight(itemList, containerWidth, targetRowHeight = 100)`:
runs the loop from an empty buffer at y = 0.  (The source's default
argument 100 is passed explicitly by callers here.) -/
def packItemsTight (itemList : List Item) (containerWidth targetRowHeight : ℚ) :
    List Placed :=
  packLoop containerWidth targetRowHeight itemList 0 [] 0

/-- Row-structured view of the same loop: identical control flow, but each
finalized row is kept as a separate list, tagged with the `isLastRow` flag
it was finalized with.  `packLoop` is its flattening (proved below). -/
def packRowsLoop (containerWidth targetRowHeight : ℚ) :
    List Item → ℚ → List Item → ℚ → List (List Placed × Bool)
  | [], currentY, rowItems, rowAspectSum =>
      if rowItems = [] then []
      else [((finalizeRow containerWidth targetRowHeight rowItems rowAspectSum currentY true).1, true)]
  | item :: rest, currentY, rowItems, rowAspectSum =>
      let rowItems' := rowItems ++ [item]
      let rowAspectSum' := rowAspectSum + resolveAspect item
      if containerWidth / rowAspectSum' ≤ targetRowHeight then
        let fr := finalizeRow containerWidth targetRowHeight rowItems' rowAspectSum' currentY false
        (fr.1, false) :: packRowsLoop containerWidth targetRowHeight rest (currentY + fr.2) [] 0
      else
        packRowsLoop containerWidth targetRowHeight rest currentY rowItems' rowAspectSum'

/-- The rows view of a whole pack. -/
def packRows (itemList : List Item) (containerWidth targetRowHeight : ℚ) :
    List (List Placed × Bool) :=
  packRowsLoop containerWidth targetRowHeight itemList 0 [] 0

/-- Aspect sum of a placed row, read back from the underlying items. -/
def aspSumP (r : List Placed) : ℚ :=
  (r.map (fun p => resolveAspect p.item)).sum

/-- The geometry quadruple of a placed item. -/
def geom (p : Placed) : ℚ × ℚ × ℚ × ℚ :=
  (p.x, p.y, p.width, p.height)

/-- Re-derivation of an input item from a placed output item, with the
aspect ratio recomputed from the output width and height (the construction
named by the idempotence claim). -/
def rederive (p : Placed) : Item :=
  { p.item with
    aspect_ratio := some (p.width / p.height)
    width := some p.width
    height := some p.height }

/-- Aspect sum of an item list, the quantity the loop's `rowAspectSum`
tracks. -/
def aspSum (l : List Item) : ℚ :=
  (l.map resolveAspect).sum

/-- Correspondence produced by the congruence lemmas: related underlying
items and identical geometry. -/
def geomRel (R : Item → Item → Prop) (p q : Placed) : Prop :=
  R p.item q.item ∧ p.x = q.x ∧ p.y = q.y ∧ p.width = q.width ∧ p.height = q.height

/-- Rows laid out head to tail starting at cursor `y`: each row is
nonempty, all its items sit at `y` and share one height `h`, and the
following rows start at `y + h`. -/
def yChained : ℚ → List (List Placed) → Prop
  | _, [] => True
  | y, r :: rs => r ≠ [] ∧ (∀ p ∈ r, p.y = y) ∧
      ∃ h : ℚ, (∀ p ∈ r, p.height = h) ∧ yChained (y + h) rs

/-- A test item carrying only an explicit aspect ratio. -/
def itemOfAspect (a : ℚ) (n : ℕ) : Item :=
  ⟨some a, none, none, false, n⟩

/-- A test item with no aspect ratio and no width, but a height of 50. -/
def itemNoDims : Item :=
  ⟨none, none, some 50, false, 0⟩

/-- A test item whose width is negative. -/
def itemNegWidth : Item :=
  ⟨none, some (-100), some 100, false, 0⟩

/-- An unpinned unit-aspect test item. -/
def itemUnpinned : Item :=
  ⟨some 1, none, none, false, 0⟩

/-- A pinned unit-aspect test item. -/
def itemPinned : Item :=
  ⟨some 1, none, none, true, 1⟩

theorem placeRow_map_item (H y : ℚ) :
    ∀ (l : List Item) (x : ℚ), (placeRow H y l x).map (fun p => p.item) = l := by
  intro l
  induction l with
  | nil => intro x; rfl
  | cons i rest ih => intro x; simp [placeRow, ih]

theorem placeRow_map_width (H y : ℚ) :
    ∀ (l : List Item) (x : ℚ),
      (placeRow H y l x).map (fun p => p.width)
        = l.map (fun i => ((⌊H * resolveAspect i⌋ : ℤ) : ℚ)) := by
  intro l
  induction l with
  | nil => intro x; rfl
  | cons i rest ih => intro x; simp [placeRow, ih]

theorem placeRow_mem (H y : ℚ) :
    ∀ (l : List Item) (x : ℚ), ∀ p ∈ placeRow H y l x,
      p.y = ((⌊y⌋ : ℤ) : ℚ) ∧ p.height = ((⌊H⌋ : ℤ) : ℚ) ∧
      p.width = ((⌊H * resolveAspect p.item⌋ : ℤ) : ℚ) ∧
      (∃ k : ℤ, p.x = (k : ℚ)) := by
  intro l
  induction l with
  | nil => intro x p hp; simp [placeRow] at hp
  | cons i rest ih =>
      intro x p hp
      simp only [placeRow, List.mem_cons] at hp
      rcases hp with h | h
      · subst h
        refine ⟨rfl, rfl, ?_, ⟨⌊x⌋, rfl⟩⟩
        simp
      · exact ih _ p h

theorem placeRow_ne_nil (H y : ℚ) (l : List Item) (x : ℚ) (hl : l ≠ []) :
    placeRow H y l x ≠ [] := by
  cases l with
  | nil => exact absurd rfl hl
  | cons i rest => simp [placeRow]

theorem placeRow_chain (H y : ℚ) :
    ∀ (l : List Item) (x : ℚ), (∃ k : ℤ, x = (k : ℚ)) →
      (∀ p ∈ (placeRow H y l x).head?, p.x = x) ∧
      List.Chain' (fun p q => q.x = p.x + p.width) (placeRow H y l x) := by
  intro l
  induction l with
  | nil => intro x _; constructor <;> simp [placeRow]
  | cons i rest ih =>
      intro x hx
      obtain ⟨k, rfl⟩ := hx
      have hfl : ((⌊(k : ℚ)⌋ : ℤ) : ℚ) = (k : ℚ) := by simp
      constructor
      · intro p hp
        simp only [placeRow, List.head?_cons, Option.mem_def, Option.some.injEq] at hp
        subst hp
        exact hfl
      · have ih' := ih ((k : ℚ) + ((⌊H * resolveAspect i⌋ : ℤ) : ℚ))
          ⟨k + ⌊H * resolveAspect i⌋, by push_cast; ring⟩
        refine List.chain'_cons'.2 ⟨?_, ih'.2⟩
        intro q hq
        have := ih'.1 q hq
        simp only [placeRow]
        rw [this, hfl]

theorem finalizeRow_of_ne_nil (C T : ℚ) (items : List Item) (S y : ℚ)
    (b : Bool) (hne : items ≠ []) :
    finalizeRow C T items S y b
      = (placeRow (if b = true ∧ T * (3 / 2) < C / S then T else C / S) y items 0,
         ((⌊if b = true ∧ T * (3 / 2) < C / S then T else C / S⌋ : ℤ) : ℚ)) := by
  simp only [finalizeRow, if_neg hne]

/-- Summing floors of a list of rationals: the floored sum never exceeds
the exact sum and falls short of it by less than the list's length. -/
theorem floorsum_bounds :
    ∀ l : List ℚ,
      ((l.map (fun q => ((⌊q⌋ : ℤ) : ℚ))).sum ≤ l.sum) ∧
      (l.sum - l.length ≤ (l.map (fun q => ((⌊q⌋ : ℤ) : ℚ))).sum) := by
  intro l
  induction l with
  | nil => simp
  | cons q rest ih =>
      obtain ⟨ih1, ih2⟩ := ih
      have h1 : ((⌊q⌋ : ℤ) : ℚ) ≤ q := Int.floor_le q
      have h2 : q - 1 < ((⌊q⌋ : ℤ) : ℚ) := Int.sub_one_lt_floor q
      constructor
      · simp only [List.map_cons, List.sum_cons]
        linarith
      · simp only [List.map_cons, List.sum_cons, List.length_cons]
        push_cast
        linarith

theorem forallTwo_append {α β : Type} {R : α → β → Prop} :
    ∀ {l1 u1 : List α} {l2 u2 : List β}, List.Forall₂ R l1 l2 →
      List.Forall₂ R u1 u2 → List.Forall₂ R (l1 ++ u1) (l2 ++ u2) := by
  intro l1 u1 l2 u2 h hu
  induction h with
  | nil => exact hu
  | cons hab _ ih => exact List.Forall₂.cons hab ih

theorem packLoop_eq_join (C T : ℚ) :
    ∀ (l : List Item) (y : ℚ) (buf : List Item) (S : ℚ),
      packLoop C T l y buf S
        = ((packRowsLoop C T l y buf S).map (fun r => r.1)).flatten := by
  intro l
  induction l with
  | nil =>
      intro y buf S
      by_cases h : buf = []
      · simp [packLoop, packRowsLoop, h]
      · simp [packLoop, packRowsLoop, h]
  | cons item rest ih =>
      intro y buf S
      simp only [packLoop, packRowsLoop]
      by_cases h : C / (S + resolveAspect item) ≤ T
      · simp [h, ih]
      · simp [h, ih]

theorem packLoop_map_item (C T : ℚ) :
    ∀ (l : List Item) (y : ℚ) (buf : List Item) (S : ℚ),
      (packLoop C T l y buf S).map (fun p => p.item) = buf ++ l := by
  intro l
  induction l with
  | nil =>
      intro y buf S
      by_cases h : buf = []
      · simp [packLoop, h]
      · simp [packLoop, h, finalizeRow_of_ne_nil C T buf S y true h,
          placeRow_map_item]
  | cons item rest ih =>
      intro y buf S
      simp only [packLoop]
      by_cases h : C / (S + resolveAspect item) ≤ T
      · have hne : buf ++ [item] ≠ [] := by simp
        simp [h, finalizeRow_of_ne_nil C T (buf ++ [item]) _ y false hne,
          placeRow_map_item, ih]
      · simp [h, ih]

theorem placeRow_congr (R : Item → Item → Prop)
    (hR : ∀ a b, R a b → resolveAspect a = resolveAspect b) (H y : ℚ) :
    ∀ {l1 l2 : List Item}, List.Forall₂ R l1 l2 → ∀ (x : ℚ),
      List.Forall₂ (geomRel R) (placeRow H y l1 x) (placeRow H y l2 x) := by
  intro l1 l2 h
  induction h with
  | nil => intro x; exact List.Forall₂.nil
  | @cons a b la lb hab _ ih =>
      intro x
      have haspect : resolveAspect a = resolveAspect b := hR a b hab
      simp only [placeRow, haspect]
      exact List.Forall₂.cons ⟨hab, rfl, rfl, rfl, rfl⟩ (ih _)

theorem packLoop_congr (C T : ℚ) (R : Item → Item → Prop)
    (hR : ∀ a b, R a b → resolveAspect a = resolveAspect b) :
    ∀ {l1 l2 : List Item}, List.Forall₂ R l1 l2 →
      ∀ (y S : ℚ) {buf1 buf2 : List Item}, List.Forall₂ R buf1 buf2 →
      List.Forall₂ (geomRel R)
        (packLoop C T l1 y buf1 S) (packLoop C T l2 y buf2 S) := by
  intro l1 l2 hl
  induction hl with
  | nil =>
      intro y S buf1 buf2 hbuf
      cases hbuf with
      | nil => simp [packLoop]
      | @cons a b la lb hab hrest =>
          have h1 : a :: la ≠ [] := by simp
          have h2 : b :: lb ≠ [] := by simp
          simp only [packLoop, if_neg h1, if_neg h2,
            finalizeRow_of_ne_nil C T _ S y true h1,
            finalizeRow_of_ne_nil C T _ S y true h2]
          exact placeRow_congr R hR _ y (List.Forall₂.cons hab hrest) 0
  | @cons a b la lb hab hrest ih =>
      intro y S buf1 buf2 hbuf
      have haspect : resolveAspect a = resolveAspect b := hR a b hab
      have hbuf' : List.Forall₂ R (buf1 ++ [a]) (buf2 ++ [b]) :=
        forallTwo_append hbuf (List.Forall₂.cons hab List.Forall₂.nil)
      have hne1 : buf1 ++ [a] ≠ [] := by simp
      have hne2 : buf2 ++ [b] ≠ [] := by simp
      simp only [packLoop, haspect]
      by_cases h : C / (S + resolveAspect b) ≤ T
      · simp only [if_pos h,
          finalizeRow_of_ne_nil C T (buf1 ++ [a]) _ y false hne1,
          finalizeRow_of_ne_nil C T (buf2 ++ [b]) _ y false hne2]
        exact forallTwo_append (placeRow_congr R hR _ y hbuf' 0)
          (ih _ _ List.Forall₂.nil)
      · simp only [if_neg h]
        exact ih _ _ hbuf'

theorem aspSum_append (l1 l2 : List Item) :
    aspSum (l1 ++ l2) = aspSum l1 + aspSum l2 := by
  simp [aspSum]

theorem aspSum_nonneg (l : List Item) (h : ∀ i ∈ l, 0 ≤ resolveAspect i) :
    0 ≤ aspSum l := by
  induction l with
  | nil => simp [aspSum]
  | cons i rest ih =>
      have h1 : 0 ≤ resolveAspect i := h i (by simp)
      have h2 : 0 ≤ aspSum rest := ih (fun j hj => h j (by simp [hj]))
      simp only [aspSum, List.map_cons, List.sum_cons]
      have : aspSum rest = (rest.map resolveAspect).sum := rfl
      linarith [this ▸ h2]

theorem aspSum_pos (l : List Item) (hne : l ≠ [])
    (h : ∀ i ∈ l, 0 < resolveAspect i) : 0 < aspSum l := by
  cases l with
  | nil => exact absurd rfl hne
  | cons i rest =>
      have h1 : 0 < resolveAspect i := h i (by simp)
      have h2 : 0 ≤ aspSum rest :=
        aspSum_nonneg rest (fun j hj => le_of_lt (h j (by simp [hj])))
      simp only [aspSum, List.map_cons, List.sum_cons]
      have : aspSum rest = (rest.map resolveAspect).sum := rfl
      linarith [this ▸ h2]

theorem placeRow_length (H y : ℚ) (l : List Item) (x : ℚ) :
    (placeRow H y l x).length = l.length := by
  have := congrArg List.length (placeRow_map_item H y l x)
  simpa using this

theorem aspSumP_eq_aspSum (r : List Placed) :
    aspSumP r = aspSum (r.map (fun p => p.item)) := by
  simp only [aspSumP, aspSum, List.map_map, Function.comp_def]

theorem aspSumP_placeRow (H y : ℚ) (l : List Item) (x : ℚ) :
    aspSumP (placeRow H y l x) = aspSum l := by
  rw [aspSumP_eq_aspSum, placeRow_map_item]

theorem aspSumP_placeRow_take (H y : ℚ) (l : List Item) (x : ℚ) (k : ℕ) :
    aspSumP ((placeRow H y l x).take k) = aspSum (l.take k) := by
  rw [aspSumP_eq_aspSum, List.map_take, placeRow_map_item]

theorem sum_map_mul_aspect (c : ℚ) (l : List Item) :
    (l.map (fun i => c * resolveAspect i)).sum = c * aspSum l := by
  induction l with
  | nil => simp [aspSum]
  | cons i rest ih =>
      simp only [List.map_cons, List.sum_cons, ih, aspSum, mul_add]

theorem packRowsLoop_rows_ne_nil (C T : ℚ) :
    ∀ (l : List Item) (y : ℚ) (buf : List Item) (S : ℚ),
      ∀ r ∈ packRowsLoop C T l y buf S, r.1 ≠ [] := by
  intro l
  induction l with
  | nil =>
      intro y buf S r hr
      by_cases h : buf = []
      · simp [packRowsLoop, h] at hr
      · simp only [packRowsLoop, if_neg h, List.mem_singleton] at hr
        subst hr
        simp only [finalizeRow_of_ne_nil C T buf S y true h]
        exact placeRow_ne_nil _ _ _ _ h
  | cons item rest ih =>
      intro y buf S r hr
      simp only [packRowsLoop] at hr
      by_cases h : C / (S + resolveAspect item) ≤ T
      · rw [if_pos h] at hr
        rcases List.mem_cons.1 hr with h1 | h1
        · subst h1
          have hne : buf ++ [item] ≠ [] := by simp
          simp only [finalizeRow_of_ne_nil C T (buf ++ [item]) _ y false hne]
          exact placeRow_ne_nil _ _ _ _ hne
        · exact ih _ [] 0 r h1
      · rw [if_neg h] at hr
        exact ih _ (buf ++ [item]) _ r hr

theorem packRowsLoop_threshold (C T : ℚ) :
    ∀ (l : List Item) (y : ℚ) (buf : List Item) (S : ℚ),
      S = aspSum buf →
      (∀ k, 0 < k → k ≤ buf.length → T < C / aspSum (buf.take k)) →
      ∀ r ∈ packRowsLoop C T l y buf S, r.2 = false →
        C / aspSumP r.1 ≤ T ∧
        (∀ k, 0 < k → k < r.1.length → T < C / aspSumP (r.1.take k)) := by
  intro l
  induction l with
  | nil =>
      intro y buf S _ _ r hr hfalse
      by_cases h : buf = []
      · simp [packRowsLoop, h] at hr
      · simp only [packRowsLoop, if_neg h, List.mem_singleton] at hr
        subst hr
        simp at hfalse
  | cons item rest ih =>
      intro y buf S hS hpre r hr hfalse
      simp only [packRowsLoop] at hr
      have hsum : S + resolveAspect item = aspSum (buf ++ [item]) := by
        rw [hS, aspSum_append]
        simp [aspSum]
      by_cases h : C / (S + resolveAspect item) ≤ T
      · rw [if_pos h] at hr
        rcases List.mem_cons.1 hr with h1 | h1
        · subst h1
          have hne : buf ++ [item] ≠ [] := by simp
          simp only [finalizeRow_of_ne_nil C T (buf ++ [item]) _ y false hne]
          constructor
          · rw [aspSumP_placeRow, ← hsum]
            simpa using h
          · intro k hk hklen
            rw [aspSumP_placeRow_take]
            rw [placeRow_length] at hklen
            have hkbuf : k ≤ buf.length := by
              simp only [List.length_append, List.length_singleton] at hklen
              omega
            rw [List.take_append_of_le_length hkbuf]
            exact hpre k hk hkbuf
        · refine ih _ [] 0 rfl ?_ r h1 hfalse
          intro k hk hklen
          simp only [List.length_nil] at hklen
          omega
      · rw [if_neg h] at hr
        refine ih _ (buf ++ [item]) (S + resolveAspect item) hsum ?_ r hr hfalse
        intro k hk hklen
        simp only [List.length_append, List.length_singleton] at hklen
        rcases lt_or_le k (buf.length + 1) with hlt | hge
        · have hkbuf : k ≤ buf.length := by omega
          rcases Nat.lt_or_ge k buf.length with h2 | h2
          · rw [List.take_append_of_le_length hkbuf]
            exact hpre k hk hkbuf
          · have hkeq : k = buf.length := by omega
            rw [List.take_append_of_le_length hkbuf]
            exact hpre k hk hkbuf
        · have hkeq : k = buf.length + 1 := by omega
          have : (buf ++ [item]).take k = buf ++ [item] := by
            apply List.take_of_length_le
            simp [hkeq]
          rw [this, ← hsum]
          exact lt_of_not_le h

theorem packRowsLoop_width_bounds (C T : ℚ) :
    ∀ (l : List Item) (y : ℚ) (buf : List Item) (S : ℚ),
      S = aspSum buf →
      (∀ i ∈ buf, 0 < resolveAspect i) →
      (∀ i ∈ l, 0 < resolveAspect i) →
      ∀ r ∈ packRowsLoop C T l y buf S, r.2 = false →
        (r.1.map (fun p => p.width)).sum ≤ C ∧
        C - r.1.length ≤ (r.1.map (fun p => p.width)).sum := by
  intro l
  induction l with
  | nil =>
      intro y buf S _ _ _ r hr hfalse
      by_cases h : buf = []
      · simp [packRowsLoop, h] at hr
      · simp only [packRowsLoop, if_neg h, List.mem_singleton] at hr
        subst hr
        simp at hfalse
  | cons item rest ih =>
      intro y buf S hS hbufpos hlpos r hr hfalse
      simp only [packRowsLoop] at hr
      have hsum : S + resolveAspect item = aspSum (buf ++ [item]) := by
        rw [hS, aspSum_append]
        simp [aspSum]
      have hbufpos' : ∀ i ∈ buf ++ [item], 0 < resolveAspect i := by
        intro i hi
        rcases List.mem_append.1 hi with hi | hi
        · exact hbufpos i hi
        · rw [List.mem_singleton] at hi
          subst hi
          exact hlpos i (by simp)
      have hlpos' : ∀ i ∈ rest, 0 < resolveAspect i :=
        fun i hi => hlpos i (by simp [hi])
      by_cases h : C / (S + resolveAspect item) ≤ T
      · rw [if_pos h] at hr
        rcases List.mem_cons.1 hr with h1 | h1
        · subst h1
          have hne : buf ++ [item] ≠ [] := by simp
          simp only [finalizeRow_of_ne_nil C T (buf ++ [item]) _ y false hne,
            Bool.false_eq_true, false_and, if_false]
          have hpos : 0 < aspSum (buf ++ [item]) := aspSum_pos _ hne hbufpos'
          set H := C / (S + resolveAspect item) with hH
          have hwidths : ((placeRow H y (buf ++ [item]) 0).map (fun p => p.width))
              = ((buf ++ [item]).map (fun i => H * resolveAspect i)).map
                  (fun q => ((⌊q⌋ : ℤ) : ℚ)) := by
            rw [placeRow_map_width, List.map_map]
            rfl
          have hb := floorsum_bounds ((buf ++ [item]).map (fun i => H * resolveAspect i))
          have hexact : ((buf ++ [item]).map (fun i => H * resolveAspect i)).sum = C := by
            rw [sum_map_mul_aspect, hH, hsum, div_mul_cancel₀]
            exact ne_of_gt hpos
          have hlen1 : ((buf ++ [item]).map (fun i => H * resolveAspect i)).length
              = (buf ++ [item]).length := by simp
          have hlen2 : (placeRow H y (buf ++ [item]) 0).length = (buf ++ [item]).length :=
            placeRow_length _ _ _ _
          constructor
          · rw [hwidths]
            rw [hexact] at hb
            exact hb.1
          · rw [hwidths, hlen2]
            rw [hexact, hlen1] at hb
            exact hb.2
        · exact ih _ [] 0 rfl (by intro i hi; simp at hi) hlpos' r h1 hfalse
      · rw [if_neg h] at hr
        exact ih _ (buf ++ [item]) (S + resolveAspect item) hsum hbufpos' hlpos' r hr hfalse

theorem packRowsLoop_yChained (C T : ℚ) :
    ∀ (l : List Item) (y : ℚ) (buf : List Item) (S : ℚ), (∃ k : ℤ, y = (k : ℚ)) →
      yChained y ((packRowsLoop C T l y buf S).map (fun r => r.1)) := by
  intro l
  induction l with
  | nil =>
      intro y buf S hy
      by_cases h : buf = []
      · simp [packRowsLoop, h, yChained]
      · obtain ⟨k, rfl⟩ := hy
        simp only [packRowsLoop, if_neg h, List.map_cons, List.map_nil]
        rw [finalizeRow_of_ne_nil C T buf S _ true h]
        refine ⟨placeRow_ne_nil _ _ _ _ h, ?_,
          ((⌊if true = true ∧ T * (3 / 2) < C / S then T else C / S⌋ : ℤ) : ℚ),
          ?_, trivial⟩
        · intro p hp
          have := (placeRow_mem _ _ buf 0 p hp).1
          rw [this]
          simp
        · intro p hp
          exact (placeRow_mem _ _ buf 0 p hp).2.1
  | cons item rest ih =>
      intro y buf S hy
      simp only [packRowsLoop]
      by_cases h : C / (S + resolveAspect item) ≤ T
      · rw [if_pos h]
        obtain ⟨k, rfl⟩ := hy
        have hne : buf ++ [item] ≠ [] := by simp
        simp only [List.map_cons]
        rw [finalizeRow_of_ne_nil C T (buf ++ [item]) _ _ false hne]
        refine ⟨placeRow_ne_nil _ _ _ _ hne, ?_,
          ((⌊if false = true ∧ T * (3 / 2) < C / (S + resolveAspect item) then T
              else C / (S + resolveAspect item)⌋ : ℤ) : ℚ),
          ?_, ?_⟩
        · intro p hp
          have := (placeRow_mem _ _ (buf ++ [item]) 0 p hp).1
          rw [this]
          simp
        · intro p hp
          exact (placeRow_mem _ _ (buf ++ [item]) 0 p hp).2.1
        · exact ih _ [] 0 ⟨k + ⌊if false = true ∧ T * (3 / 2) <
            C / (S + resolveAspect item) then T else C / (S + resolveAspect item)⌋,
            by push_cast; ring⟩
      · rw [if_neg h]
        exact ih _ (buf ++ [item]) _ hy

theorem yChained_chain_eq :
    ∀ (rs : List (List Placed)) (y : ℚ), yChained y rs →
      List.Chain' (fun r s => ∀ p ∈ s, ∀ q ∈ r, p.y = q.y + q.height) rs := by
  intro rs
  induction rs with
  | nil => intro y _; exact List.chain'_nil
  | cons r rs' ih =>
      intro y hy
      obtain ⟨_, hys, h, hh, hrest⟩ := hy
      refine List.chain'_cons'.2 ⟨?_, ih _ hrest⟩
      intro s hs p hp q hq
      cases rs' with
      | nil => simp at hs
      | cons s0 rs'' =>
          simp only [List.head?_cons, Option.mem_def, Option.some.injEq] at hs
          subst hs
          obtain ⟨_, hys0, _⟩ := hrest
          rw [hys0 p hp, hys q hq, hh q hq]

theorem yChained_chain_lt :
    ∀ (rs : List (List Placed)) (y : ℚ), yChained y rs →
      (∀ r ∈ rs, ∀ q ∈ r, 1 ≤ q.height) →
      List.Chain' (fun r s => ∀ p ∈ s, ∀ q ∈ r, q.y < p.y) rs := by
  intro rs
  induction rs with
  | nil => intro y _ _; exact List.chain'_nil
  | cons r rs' ih =>
      intro y hy hhts
      obtain ⟨_, hys, h, hh, hrest⟩ := hy
      refine List.chain'_cons'.2
        ⟨?_, ih _ hrest (fun r0 hr0 => hhts r0 (by simp [hr0]))⟩
      intro s hs p hp q hq
      cases rs' with
      | nil => simp at hs
      | cons s0 rs'' =>
          simp only [List.head?_cons, Option.mem_def, Option.some.injEq] at hs
          subst hs
          obtain ⟨_, hys0, _⟩ := hrest
          have h1 : 1 ≤ q.height := hhts r (by simp) q hq
          rw [hys0 p hp, hys q hq, ← hh q hq]
          linarith

theorem orDefault_pos (x : Option ℚ) (hx : ∀ w, x = some w → 0 ≤ w) :
    0 < orDefault x 100 := by
  cases x with
  | none => norm_num [orDefault]
  | some v =>
      by_cases hv : v = 0
      · simp [orDefault, hv]
      · have : 0 ≤ v := hx v rfl
        simp only [orDefault, if_neg hv]
        exact lt_of_le_of_ne this (Ne.symm hv)

theorem packLoop_integral (C T : ℚ) :
    ∀ (l : List Item) (y : ℚ) (buf : List Item) (S : ℚ),
      ∀ p ∈ packLoop C T l y buf S,
        (∃ a : ℤ, p.x = (a : ℚ)) ∧ (∃ b : ℤ, p.y = (b : ℚ)) ∧
        (∃ c : ℤ, p.width = (c : ℚ)) ∧ (∃ d : ℤ, p.height = (d : ℚ)) := by
  intro l
  induction l with
  | nil =>
      intro y buf S p hp
      by_cases h : buf = []
      · simp [packLoop, h] at hp
      · simp only [packLoop, if_neg h, finalizeRow_of_ne_nil C T buf S y true h] at hp
        obtain ⟨hy, hh, hw, hx⟩ := placeRow_mem _ _ buf 0 p hp
        exact ⟨hx, ⟨⌊y⌋, hy⟩, ⟨_, hw⟩, ⟨_, hh⟩⟩
  | cons item rest ih =>
      intro y buf S p hp
      simp only [packLoop] at hp
      by_cases h : C / (S + resolveAspect item) ≤ T
      · rw [if_pos h] at hp
        rcases List.mem_append.1 hp with h1 | h1
        · have hne : buf ++ [item] ≠ [] := by simp
          rw [finalizeRow_of_ne_nil C T (buf ++ [item]) _ y false hne] at h1
          obtain ⟨hy, hh, hw, hx⟩ := placeRow_mem _ _ (buf ++ [item]) 0 p h1
          exact ⟨hx, ⟨⌊y⌋, hy⟩, ⟨_, hw⟩, ⟨_, hh⟩⟩
        · exact ih _ [] 0 p h1
      · rw [if_neg h] at hp
        exact ih _ (buf ++ [item]) _ p hp

theorem forallTwo_of_map_eq {α β : Type} {f : α → β} :
    ∀ {l1 l2 : List α}, l1.map f = l2.map f →
      List.Forall₂ (fun a b => f a = f b) l1 l2 := by
  intro l1
  induction l1 with
  | nil =>
      intro l2 h
      cases l2 with
      | nil => exact List.Forall₂.nil
      | cons b m => simp at h
  | cons a l ih =>
      intro l2 h
      cases l2 with
      | nil => simp at h
      | cons b m =>
          simp only [List.map_cons, List.cons.injEq] at h
          exact List.Forall₂.cons h.1 (ih h.2)

theorem map_geom_of_forallTwo {R : Item → Item → Prop} :
    ∀ {l1 l2 : List Placed}, List.Forall₂ (geomRel R) l1 l2 →
      l1.map geom = l2.map geom := by
  intro l1 l2 h
  induction h with
  | nil => rfl
  | cons hab _ ih =>
      obtain ⟨_, hx, hy, hw, hh⟩ := hab
      simp only [List.map_cons, ih, List.cons.injEq, and_true]
      simp [geom, hx, hy, hw, hh]

/-- C8: packing an empty item list returns the empty list for every
container width and target row height. -/
theorem c8_empty_input (C T : ℚ) : packItemsTight [] C T = [] := by
  simp [packItemsTight, packLoop]

/-- C2 counterexample: on the input [unpinned, pinned] the packer's output
keeps the unpinned item first, so the pinned item is not placed before all
unpinned items (the pinned flags of the output, in order, are
[false, true], which is not weakly decreasing). -/
theorem c2_counterexample :
    ¬ List.Pairwise (fun a b => b ≤ a)
      ((packItemsTight [itemUnpinned, itemPinned] 1000 10).map
        (fun p => p.item.pinned)) := by
  have h : (packItemsTight [itemUnpinned, itemPinned] 1000 10).map
      (fun p => p.item.pinned) = [false, true] := by
    norm_num [packItemsTight, packLoop, finalizeRow, placeRow, resolveAspect,
      itemUnpinned, itemPinned, Rat.floor_def]
    simp
  rw [h]
  decide

/-- C2 amended: the packer never reorders its input: the output items are
exactly the input items in input order (the pinned/unpinned partition
computed at the top of the function is never consulted, so pinned items
are first only when the caller pre-orders them first). -/
theorem c2_order_preserved (items : List Item) (C T : ℚ) :
    (packItemsTight items C T).map (fun p => p.item) = items := by
  simpa using packLoop_map_item C T items 0 [] 0

/-- C10: every placed item of every pack has integer x, y, width and
height, for arbitrary rational container width, target row height and
aspect data. -/
theorem c10_integer_geometry (items : List Item) (C T : ℚ) (p : Placed)
    (hp : p ∈ packItemsTight items C T) :
    (∃ a : ℤ, p.x = (a : ℚ)) ∧ (∃ b : ℤ, p.y = (b : ℚ)) ∧
    (∃ c : ℤ, p.width = (c : ℚ)) ∧ (∃ d : ℤ, p.height = (d : ℚ)) :=
  packLoop_integral C T items 0 [] 0 p hp

/-- C10 witness: the theorem applied to a concrete one-item pack. -/
theorem c10_witness :
    (∃ a : ℤ, (⟨itemOfAspect 1 0, 0, 0, 100, 100⟩ : Placed).x = (a : ℚ)) ∧
    (∃ b : ℤ, (⟨itemOfAspect 1 0, 0, 0, 100, 100⟩ : Placed).y = (b : ℚ)) ∧
    (∃ c : ℤ, (⟨itemOfAspect 1 0, 0, 0, 100, 100⟩ : Placed).width = (c : ℚ)) ∧
    (∃ d : ℤ, (⟨itemOfAspect 1 0, 0, 0, 100, 100⟩ : Placed).height = (d : ℚ)) :=
  c10_integer_geometry [itemOfAspect 1 0] 100 100 _
    (by norm_num [packItemsTight, packLoop, finalizeRow, placeRow,
      resolveAspect, itemOfAspect, Rat.floor_def])

/-- C4 counterexample: with aspect_ratio absent and width missing but
height 50, the resolved aspect ratio is 100/50 = 2, not the claimed
fallback 1.0; and a negative width propagates: the item with width −100,
height 100 resolves to aspect −1 and the pack places it with output
height −100, so negative source dimensions do reach the output. -/
theorem c4_counterexample :
    resolveAspect itemNoDims = 2 ∧ (2 : ℚ) ≠ 1 ∧
    resolveAspect itemNegWidth = -1 ∧
    (packItemsTight [itemNegWidth] 100 100).map (fun p => p.height)
      = [(-100 : ℚ)] := by
  refine ⟨?_, by norm_num, ?_, ?_⟩
  · norm_num [resolveAspect, orDefault, itemNoDims]
  · norm_num [resolveAspect, orDefault, itemNegWidth]
  · norm_num [packItemsTight, packLoop, finalizeRow, placeRow, resolveAspect,
      orDefault, itemNegWidth, Rat.floor_def]

/-- C4 amended: when aspect_ratio is absent or zero the fallback is
(width or 100) / (height or 100), not always 1.0: under nonnegative
source fields the resolved aspect ratio is a positive rational, and it
equals 1.0 exactly in the sub-case where width and height are both absent
or zero; negative source dimensions are not filtered (see the
counterexample) and no error is surfaced. -/
theorem c4_aspect_fallback (i : Item)
    (hw : ∀ w, i.width = some w → 0 ≤ w)
    (hh : ∀ h, i.height = some h → 0 ≤ h)
    (ha : ∀ a, i.aspect_ratio = some a → 0 ≤ a) :
    0 < resolveAspect i ∧
    (((i.aspect_ratio = none ∨ i.aspect_ratio = some 0) ∧
      (i.width = none ∨ i.width = some 0) ∧
      (i.height = none ∨ i.height = some 0)) → resolveAspect i = 1) := by
  have hwpos : 0 < orDefault i.width 100 := orDefault_pos _ hw
  have hhpos : 0 < orDefault i.height 100 := orDefault_pos _ hh
  constructor
  · rcases hasp : i.aspect_ratio with _ | a
    · simp only [resolveAspect, hasp]
      exact div_pos hwpos hhpos
    · by_cases h0 : a = 0
      · simp only [resolveAspect, hasp, if_pos h0]
        exact div_pos hwpos hhpos
      · simp only [resolveAspect, hasp, if_neg h0]
        exact lt_of_le_of_ne (ha a hasp) (Ne.symm h0)
  · rintro ⟨hasp, hwf, hhf⟩
    have hw1 : orDefault i.width 100 = 100 := by
      rcases hwf with h | h <;> simp [orDefault, h]
    have hh1 : orDefault i.height 100 = 100 := by
      rcases hhf with h | h <;> simp [orDefault, h]
    rcases hasp with h | h
    · simp [resolveAspect, h, hw1, hh1]
    · simp [resolveAspect, h, hw1, hh1]

/-- C4 witness: the amended theorem applied to an item with no fields at
all, whose aspect resolves to the positive value 1. -/
theorem c4_witness :
    0 < resolveAspect ⟨none, none, none, false, 9⟩ ∧
    ((((⟨none, none, none, false, 9⟩ : Item).aspect_ratio = none ∨
       (⟨none, none, none, false, 9⟩ : Item).aspect_ratio = some 0) ∧
      ((⟨none, none, none, false, 9⟩ : Item).width = none ∨
       (⟨none, none, none, false, 9⟩ : Item).width = some 0) ∧
      ((⟨none, none, none, false, 9⟩ : Item).height = none ∨
       (⟨none, none, none, false, 9⟩ : Item).height = some 0)) →
      resolveAspect ⟨none, none, none, false, 9⟩ = 1) :=
  c4_aspect_fallback ⟨none, none, none, false, 9⟩
    (by intro w h; simp at h) (by intro w h; simp at h) (by intro a h; simp at h)

/-- C1 counterexample: with containerWidth 400, targetRowHeight 150 and
aspect ratios [2, 3], adding the second item drops the candidate height
to 400/5 = 80, below the target, while the height without it was
400/2 = 200; excluding the item is closer to the target
(|200 − 150| = 50 ≤ 70 = |80 − 150|), so the claim predicts a row emitted
without the second item — but the packer emits a single row containing
both items. -/
theorem c1_counterexample :
    (400 / (resolveAspect (itemOfAspect 2 0) + resolveAspect (itemOfAspect 3 1))
      < (150 : ℚ)) ∧
    (|400 / resolveAspect (itemOfAspect 2 0) - 150|
      ≤ |400 / (resolveAspect (itemOfAspect 2 0) + resolveAspect (itemOfAspect 3 1))
          - 150|) ∧
    ((packRows [itemOfAspect 2 0, itemOfAspect 3 1] 400 150).map
        (fun r => r.1.map (fun p => p.item)))
      = [[itemOfAspect 2 0, itemOfAspect 3 1]] := by
  refine ⟨by norm_num [resolveAspect, itemOfAspect], ?_, ?_⟩
  · have h1 : (400 : ℚ) / resolveAspect (itemOfAspect 2 0) - 150 = 50 := by
      norm_num [resolveAspect, itemOfAspect]
    have h2 : (400 : ℚ) / (resolveAspect (itemOfAspect 2 0)
        + resolveAspect (itemOfAspect 3 1)) - 150 = -70 := by
      norm_num [resolveAspect, itemOfAspect]
    rw [h1, h2, abs_of_pos (by norm_num : (0 : ℚ) < 50),
      abs_of_neg (by norm_num : (-70 : ℚ) < 0)]
    norm_num
  · norm_num [packRows, packRowsLoop, finalizeRow, placeRow, resolveAspect,
      itemOfAspect, Rat.floor_def]
    simp

/-- C1 amended: the packer uses a plain threshold rule with no
closest-to-target comparison: every row finalized inside the loop (flag
false) is nonempty, its full aspect sum satisfies
containerWidth / sum ≤ targetRowHeight, and every proper nonempty prefix
still satisfied containerWidth / prefixSum > targetRowHeight — i.e. the
row always ends with, and includes, the first item whose insertion made
the candidate height drop to the target or below; the item never starts
the next row at such a decision point. -/
theorem c1_threshold_rows (items : List Item) (C T : ℚ)
    (r : List Placed × Bool) (hr : r ∈ packRows items C T) (hflag : r.2 = false) :
    r.1 ≠ [] ∧ C / aspSumP r.1 ≤ T ∧
    (∀ k, 0 < k → k < r.1.length → T < C / aspSumP (r.1.take k)) := by
  have hpre : ∀ k, 0 < k → k ≤ ([] : List Item).length →
      T < C / aspSum (([] : List Item).take k) := by
    intro k hk hkl
    simp only [List.length_nil] at hkl
    exact absurd (lt_of_lt_of_le hk hkl) (lt_irrefl 0)
  have h := packRowsLoop_threshold C T items 0 [] 0 (by simp [aspSum]) hpre r hr hflag
  exact ⟨packRowsLoop_rows_ne_nil C T items 0 [] 0 r hr, h.1, h.2⟩

/-- C1 witness: the amended theorem applied to a one-item complete row. -/
theorem c1_witness :
    ([⟨itemOfAspect 1 2, (0 : ℚ), 0, 100, 100⟩] : List Placed) ≠ [] ∧
    (100 : ℚ) / aspSumP [⟨itemOfAspect 1 2, (0 : ℚ), 0, 100, 100⟩] ≤ 100 ∧
    (∀ k, 0 < k → k < ([⟨itemOfAspect 1 2, (0 : ℚ), 0, 100, 100⟩] : List Placed).length →
      (100 : ℚ) < 100 / aspSumP
        (([⟨itemOfAspect 1 2, (0 : ℚ), 0, 100, 100⟩] : List Placed).take k)) :=
  c1_threshold_rows [itemOfAspect 1 2] 100 100
    ([⟨itemOfAspect 1 2, (0 : ℚ), 0, 100, 100⟩], false)
    (by norm_num [packRows, packRowsLoop, finalizeRow, placeRow, resolveAspect,
      itemOfAspect, Rat.floor_def]) rfl

/-- C3 counterexample: a trailing row holding one item of aspect ratio 3
at containerWidth 400, targetRowHeight 100 is placed with height
133 = floor(400/3) (the cap at 1.5 × target does not fire), not with the
claimed height targetRowHeight = 100. -/
theorem c3_counterexample :
    (packItemsTight [itemOfAspect 3 0] 400 100).map (fun p => p.height)
      = [(133 : ℚ)] ∧ (133 : ℚ) ≠ 100 := by
  constructor
  · norm_num [packItemsTight, packLoop, finalizeRow, placeRow, resolveAspect,
      itemOfAspect, Rat.floor_def]
  · norm_num

/-- C3 amended: the trailing row keeps rowHeight = containerWidth / S and
only falls back to targetRowHeight when that exceeds 1.5 × target; its
items keep the input order, get height floor(rowHeight) and width
floor(rowHeight × aspect), start left-aligned at x = 0, and each next x
is the previous x plus the previous width — no right-edge snapping. -/
theorem c3_last_row (C T : ℚ) (items : List Item) (S y : ℚ) (hne : items ≠ []) :
    ((finalizeRow C T items S y true).1.map (fun p => p.item) = items) ∧
    (∀ p ∈ (finalizeRow C T items S y true).1,
      p.height = ((⌊if T * (3 / 2) < C / S then T else C / S⌋ : ℤ) : ℚ) ∧
      p.width = ((⌊(if T * (3 / 2) < C / S then T else C / S)
        * resolveAspect p.item⌋ : ℤ) : ℚ)) ∧
    (∀ p ∈ (finalizeRow C T items S y true).1.head?, p.x = 0) ∧
    List.Chain' (fun p q => q.x = p.x + p.width) (finalizeRow C T items S y true).1 := by
  rw [finalizeRow_of_ne_nil C T items S y true hne]
  simp only [eq_self_iff_true, true_and]
  refine ⟨placeRow_map_item _ _ _ _, ?_, ?_, ?_⟩
  · intro p hp
    obtain ⟨_, hh, hw, _⟩ := placeRow_mem _ _ items 0 p hp
    exact ⟨hh, hw⟩
  · intro p hp
    exact (placeRow_chain _ _ items 0 ⟨0, by norm_num⟩).1 p hp
  · exact (placeRow_chain _ _ items 0 ⟨0, by norm_num⟩).2

/-- C3 witness: the amended theorem applied to a concrete one-item
trailing row. -/
theorem c3_witness :
    ((finalizeRow 100 100 [itemOfAspect 1 6] 1 0 true).1.map (fun p => p.item)
      = [itemOfAspect 1 6]) ∧
    (∀ p ∈ (finalizeRow 100 100 [itemOfAspect 1 6] 1 0 true).1,
      p.height = ((⌊if (100 : ℚ) * (3 / 2) < 100 / 1 then (100 : ℚ) else 100 / 1⌋ : ℤ) : ℚ) ∧
      p.width = ((⌊(if (100 : ℚ) * (3 / 2) < 100 / 1 then (100 : ℚ) else 100 / 1)
        * resolveAspect p.item⌋ : ℤ) : ℚ)) ∧
    (∀ p ∈ (finalizeRow 100 100 [itemOfAspect 1 6] 1 0 true).1.head?, p.x = 0) ∧
    List.Chain' (fun p q => q.x = p.x + p.width)
      (finalizeRow 100 100 [itemOfAspect 1 6] 1 0 true).1 :=
  c3_last_row 100 100 [itemOfAspect 1 6] 1 0 (List.cons_ne_nil _ _)

/-- C6: for every loop-finalized (non-last) row, the placed widths sum to
at most containerWidth and to at least containerWidth minus the number of
items in the row, under the documented preconditions that every item's
resolved aspect ratio is positive. -/
theorem c6_width_containment (items : List Item) (C T : ℚ)
    (hpos : ∀ i ∈ items, 0 < resolveAspect i)
    (r : List Placed × Bool) (hr : r ∈ packRows items C T) (hflag : r.2 = false) :
    (r.1.map (fun p => p.width)).sum ≤ C ∧
    C - r.1.length ≤ (r.1.map (fun p => p.width)).sum :=
  packRowsLoop_width_bounds C T items 0 [] 0 (by simp [aspSum])
    (fun i hi => absurd hi (List.not_mem_nil i)) hpos r hr hflag

/-- C6 witness: the theorem applied to a concrete complete row. -/
theorem c6_witness :
    ((([⟨itemOfAspect 1 3, (0 : ℚ), 0, 100, 100⟩] : List Placed).map
      (fun p => p.width)).sum ≤ (100 : ℚ)) ∧
    ((100 : ℚ) - ([⟨itemOfAspect 1 3, (0 : ℚ), 0, 100, 100⟩] : List Placed).length
      ≤ (([⟨itemOfAspect 1 3, (0 : ℚ), 0, 100, 100⟩] : List Placed).map
        (fun p => p.width)).sum) :=
  c6_width_containment [itemOfAspect 1 3] 100 100
    (by
      intro i hi
      rw [List.mem_singleton] at hi
      subst hi
      norm_num [resolveAspect, itemOfAspect])
    ([⟨itemOfAspect 1 3, (0 : ℚ), 0, 100, 100⟩], false)
    (by norm_num [packRows, packRowsLoop, finalizeRow, placeRow, resolveAspect,
      itemOfAspect, Rat.floor_def]) rfl

/-- C7 counterexample: with two items of aspect ratio 1000 at
containerWidth 400, targetRowHeight 100, each item forms its own row of
floored height 0, so both rows sit at y = 0 and the y offsets are not
strictly increasing. -/
theorem c7_counterexample :
    ¬ List.Chain' (fun r s => ∀ p ∈ s, ∀ q ∈ r, q.y < p.y)
      ((packRows [itemOfAspect 1000 0, itemOfAspect 1000 1] 400 100).map
        (fun r => r.1)) := by
  have h : (packRows [itemOfAspect 1000 0, itemOfAspect 1000 1] 400 100).map
      (fun r => r.1)
      = [[⟨itemOfAspect 1000 0, 0, 0, 400, 0⟩], [⟨itemOfAspect 1000 1, 0, 0, 400, 0⟩]] := by
    norm_num [packRows, packRowsLoop, finalizeRow, placeRow, resolveAspect,
      itemOfAspect, Rat.floor_def]
  rw [h]
  intro hch
  have h2 := (List.chain'_cons.1 hch).1 ⟨itemOfAspect 1000 1, 0, 0, 400, 0⟩
    (by simp) ⟨itemOfAspect 1000 0, 0, 0, 400, 0⟩ (by simp)
  exact absurd h2 (by norm_num)

/-- C7 amended: rows are laid head to tail: every emitted row is
nonempty, each item of row k+1 has y equal to any item of row k's y plus
that item's height; the y offsets are strictly increasing whenever every
placed row height is at least 1 (the strictness in the original claim
fails when a row's floored height is 0, see the counterexample). -/
theorem c7_y_offsets (items : List Item) (C T : ℚ) :
    (∀ r ∈ (packRows items C T).map (fun r => r.1), r ≠ []) ∧
    List.Chain' (fun r s => ∀ p ∈ s, ∀ q ∈ r, p.y = q.y + q.height)
      ((packRows items C T).map (fun r => r.1)) ∧
    ((∀ r ∈ (packRows items C T).map (fun r => r.1), ∀ q ∈ r, 1 ≤ q.height) →
      List.Chain' (fun r s => ∀ p ∈ s, ∀ q ∈ r, q.y < p.y)
        ((packRows items C T).map (fun r => r.1))) := by
  have hch := packRowsLoop_yChained C T items 0 [] 0 ⟨0, by norm_num⟩
  refine ⟨?_, yChained_chain_eq _ _ hch, fun hh => yChained_chain_lt _ _ hch hh⟩
  intro r hr
  obtain ⟨r0, hr0, rfl⟩ := List.mem_map.1 hr
  exact packRowsLoop_rows_ne_nil C T items 0 [] 0 r0 hr0

/-- C7 witness: on two unit-aspect items at containerWidth 100, target
100, the rows have height 100 ≥ 1, and the strict chain holds. -/
theorem c7_witness :
    List.Chain' (fun r s => ∀ p ∈ s, ∀ q ∈ r, q.y < p.y)
      ((packRows [itemOfAspect 1 4, itemOfAspect 1 5] 100 100).map
        (fun r => r.1)) :=
  (c7_y_offsets [itemOfAspect 1 4, itemOfAspect 1 5] 100 100).2.2
    (by
      have h : (packRows [itemOfAspect 1 4, itemOfAspect 1 5] 100 100).map
          (fun r => r.1)
          = [[⟨itemOfAspect 1 4, 0, 0, 100, 100⟩], [⟨itemOfAspect 1 5, 0, 100, 100, 100⟩]] := by
        norm_num [packRows, packRowsLoop, finalizeRow, placeRow, resolveAspect,
          itemOfAspect, Rat.floor_def]
      rw [h]
      intro r hr q hq
      rcases List.mem_cons.1 hr with h1 | h1
      · subst h1
        rw [List.mem_singleton] at hq
        subst hq
        norm_num
      · rw [List.mem_singleton] at h1
        subst h1
        rw [List.mem_singleton] at hq
        subst hq
        norm_num)

/-- C9: the output placement and order do not depend on the pinned flags:
two inputs agreeing in everything except possibly pinned produce outputs
with identical x, y, width, height and identically ordered payloads. -/
theorem c9_pinned_noninterference (l1 l2 : List Item) (C T : ℚ)
    (h : List.Forall₂ (fun a b => a.aspect_ratio = b.aspect_ratio ∧
      a.width = b.width ∧ a.height = b.height ∧ a.payload = b.payload) l1 l2) :
    List.Forall₂ (fun p q => p.item.payload = q.item.payload ∧ p.x = q.x ∧
      p.y = q.y ∧ p.width = q.width ∧ p.height = q.height)
      (packItemsTight l1 C T) (packItemsTight l2 C T) := by
  have hR : ∀ a b, (a.aspect_ratio = b.aspect_ratio ∧ a.width = b.width ∧
      a.height = b.height ∧ a.payload = b.payload) →
      resolveAspect a = resolveAspect b := by
    intro a b hab
    obtain ⟨h1, h2, h3, _⟩ := hab
    unfold resolveAspect
    rw [h1, h2, h3]
  have hcongr := packLoop_congr C T _ hR h 0 0 List.Forall₂.nil
  exact hcongr.imp (fun p q hpq => ⟨hpq.1.2.2.2, hpq.2⟩)

/-- C9 witness: the theorem applied to two singleton inputs differing
only in the pinned flag. -/
theorem c9_witness :
    List.Forall₂ (fun p q => p.item.payload = q.item.payload ∧ p.x = q.x ∧
      p.y = q.y ∧ p.width = q.width ∧ p.height = q.height)
      (packItemsTight [⟨some 1, none, none, false, 7⟩] 100 100)
      (packItemsTight [⟨some 1, none, none, true, 7⟩] 100 100) :=
  c9_pinned_noninterference [⟨some 1, none, none, false, 7⟩]
    [⟨some 1, none, none, true, 7⟩] 100 100
    (List.Forall₂.cons ⟨rfl, rfl, rfl, rfl⟩ List.Forall₂.nil)

/-- C5 counterexample: the three-item input with aspect ratios
[109/20, 31/40, 31/40] at containerWidth 14, targetRowHeight 11/5 packs
to widths [10, 1, 1]; re-deriving each aspect ratio from the output width
and height and re-packing with the same parameters yields widths
[11, 1, 1], so the geometry is not reproduced. -/
theorem c5_counterexample :
    ((packItemsTight [itemOfAspect (109/20) 0, itemOfAspect (31/40) 1,
        itemOfAspect (31/40) 2] 14 (11/5)).map (fun p => p.width)
      = [10, 1, 1]) ∧
    ((packItemsTight ((packItemsTight [itemOfAspect (109/20) 0,
        itemOfAspect (31/40) 1, itemOfAspect (31/40) 2] 14 (11/5)).map rederive)
        14 (11/5)).map (fun p => p.width) = [11, 1, 1]) ∧
    (([10, 1, 1] : List ℚ) ≠ [11, 1, 1]) := by
  refine ⟨?_, ?_, by norm_num⟩
  · norm_num [packItemsTight, packLoop, finalizeRow, placeRow, resolveAspect,
      itemOfAspect, Rat.floor_def]
    simp
  · norm_num [packItemsTight, packLoop, finalizeRow, placeRow, resolveAspect,
      rederive, itemOfAspect, Rat.floor_def]
    simp

/-- C5 amended: re-packing the packer's output with aspect ratios
re-derived from the output width/height reproduces the geometry exactly
when the re-derived ratios resolve to the same values as the original
items' did; floor rounding can perturb the re-derived ratios, in which
case the geometry may differ (see the counterexample). -/
theorem c5_repack_geometry (items : List Item) (C T : ℚ)
    (h : ((packItemsTight items C T).map rederive).map resolveAspect
          = items.map resolveAspect) :
    (packItemsTight ((packItemsTight items C T).map rederive) C T).map geom
      = (packItemsTight items C T).map geom := by
  have h2 : List.Forall₂ (fun a b => resolveAspect a = resolveAspect b)
      ((packItemsTight items C T).map rederive) items := forallTwo_of_map_eq h
  have h3 := packLoop_congr C T _ (fun a b hab => hab) h2 0 0 List.Forall₂.nil
  exact map_geom_of_forallTwo h3

/-- C5 witness: a one-item pack whose re-derived aspect ratio 100/100 = 1
matches the original, so the repack reproduces the geometry. -/
theorem c5_witness :
    (packItemsTight ((packItemsTight [itemOfAspect 1 7] 100 100).map rederive)
        100 100).map geom
      = (packItemsTight [itemOfAspect 1 7] 100 100).map geom :=
  c5_repack_geometry [itemOfAspect 1 7] 100 100
    (by norm_num [packItemsTight, packLoop, finalizeRow, placeRow,
      resolveAspect, rederive, itemOfAspect, orDefault, Rat.floor_def])

end Collage
